import Mathlib

open scoped List

/- Verification development for the compression module (Compression.h):
   the RLE codec (namespace RLE, lines 16-97) and the Huffman codec
   (namespace Huffman, lines 101-581).

   Machine words of bit width w are modelled as natural numbers below 2^w,
   the bit pattern of the C++ word.  Signedness of the instantiated word
   type only affects how a pattern prints; every operation the codecs
   perform on words (masking with the top bit, shifting bits in and out,
   equality comparison) acts on the bit pattern, so the Nat encoding is
   exact.  Counters are kept as Nat; the flush logic bounds them by
   MAX_COUNT < 2^(w-1), so the C++ unsigned counter never wraps either.

   Undefined behaviour of the C++ (dereferencing an iterator at or past
   the end, heap.top() on an empty priority queue) is modelled by Option:
   a result of none marks a point where the C++ has no defined result.
   The two while-loops that the C++ runs without an a-priori bound
   (Huffman::decompress and the recursive tree reconstruction) are given
   explicit fuel; the fuel chosen is an upper bound on the number of
   iterations whenever the loop terminates at all, so none also marks
   the one input class on which the C++ loop never advances. -/

/-! ## RLE codec (Compression.h, lines 16-97) -/

/-- MSB of RLE::compress / RLE::decompress (line 31): 1 << (digits - 1). -/
def rleMSB (w : Nat) : Nat := 1 <<< (w - 1)

/-- MAX_COUNT of RLE::compress / RLE::decompress (line 32):
    numeric_limits of the unsigned type, max() >> 1. -/
def rleMaxCount (w : Nat) : Nat := (2 ^ w - 1) >>> 1

/-- The flush step of RLE::compress (lines 42-48 and 54-60): a pending run
    of count occurrences of last is emitted as the single word last when
    count == 1 and the top bit of last is clear, and as the pair
    (MSB | count, last) otherwise. -/
def rleFlush (w last count : Nat) : List Nat :=
  if count = 1 ∧ last &&& rleMSB w = 0 then [last]
  else [rleMSB w ||| count, last]

/-- The loop of RLE::compress (lines 39-60) after the first element has
    seeded last_element (with count already incremented to 1): scan the
    remaining elements, flushing the pending run when the element changes
    or the counter has reached MAX_COUNT, and flush once more at the end. -/
def rleCompressAux (w : Nat) : List Nat → Nat → Nat → List Nat
  | [], last, count => rleFlush w last count
  | x :: xs, last, count =>
    if x ≠ last ∨ count = rleMaxCount w then
      rleFlush w last count ++ rleCompressAux w xs x 1
    else
      rleCompressAux w xs last (count + 1)

/-- RLE::compress (lines 23-63).  On an empty range the C++ dereferences
    begin (line 36) with no element there; that undefined start is none. -/
def rleCompress (w : Nat) : List Nat → Option (List Nat)
  | [] => none
  | x :: xs => some (rleCompressAux w xs x 1)

/-- RLE::decompress (lines 67-95).  A word with the top bit set is a
    counter (count = word - MSB) and the following word is appended count
    times; a word with the top bit clear is appended once.  A counter as
    the last word makes the C++ advance the iterator past the counter and
    dereference end (line 87): that undefined read is none. -/
def rleDecompress (w : Nat) : List Nat → Option (List Nat)
  | [] => some []
  | x :: xs =>
    if x &&& rleMSB w ≠ 0 then
      match xs with
      | [] => none
      | y :: ys =>
        (rleDecompress w ys).map (fun r => List.replicate (x - rleMSB w) y ++ r)
    else
      (rleDecompress w xs).map (fun r => x :: r)

/-! ## Huffman codec (Compression.h, lines 101-581) -/

/-- A node of HuffmanTree (lines 111-225).  The frequency field is
    construction metadata only: it is carried in the heap entries during
    makeTree below and never read by encode, decode, treeRepr or
    reconstructTree, so the tree type itself holds only the structure and
    the leaf data.  A node is a leaf precisely when both C++ child
    pointers are null; internal nodes always have two children. -/
inductive HTree where
  | leaf (data : Nat)
  | node (left right : HTree)
deriving DecidableEq, Repr

/-- The leaf data of a tree, in depth-first left-to-right order. -/
def leavesData : HTree → List Nat
  | .leaf d => [d]
  | .node l r => leavesData l ++ leavesData r

/-- Depth of a tree: the longest root-to-leaf edge count. -/
def htDepth : HTree → Nat
  | .leaf _ => 0
  | .node l r => max (htDepth l) (htDepth r) + 1

/-- The leaf data of every tree held in a heap, in heap order. -/
def heapLeaves : List (Nat × HTree) → List Nat
  | [] => []
  | p :: ps => leavesData p.2 ++ heapLeaves ps

/-- HuffmanTree::makeFrequencyTable (lines 415-426): occurrence counts in
    a std::map, hence iterated in increasing key order.  (For a signed
    word type the C++ key order differs from the Nat order used here; no
    property proved below depends on the iteration order.) -/
def makeFrequencyTable (s : List Nat) : List (Nat × Nat) :=
  (List.insertionSort (· ≤ ·) s.dedup).map (fun x => (x, s.count x))

/-- One push into the min-priority queue of makeTree (line 305).  The heap
    is modelled as a list sorted by ascending frequency; an entry is
    inserted behind entries of equal frequency.  The C++ std::priority_queue
    leaves the pop order of equal-frequency entries unspecified; this model
    fixes one such order, and no property proved below depends on it. -/
def heapPush (n : Nat × HTree) : List (Nat × HTree) → List (Nat × HTree)
  | [] => [n]
  | m :: ms => if n.1 < m.1 then n :: m :: ms else m :: heapPush n ms

/-- The heap-filling loop of makeTree (lines 306-307): one leaf per
    frequency-table entry, pushed in table order. -/
def buildHeap (tbl : List (Nat × Nat)) : List (Nat × HTree) :=
  tbl.foldl (fun h p => heapPush (p.2, HTree.leaf p.1) h) []

/-- The merge loop of makeTree (lines 309-316): repeatedly pop the two
    minimal nodes min1, min2 and push an internal node with children
    (min1, min2) and the summed frequency, until one node remains.  Each
    round shrinks the heap by one, so fuel = initial heap size never runs
    out; on an empty heap the C++ calls top() (line 319) with nothing
    there, which is none. -/
def mergeLoopF : Nat → List (Nat × HTree) → Option (Nat × HTree)
  | _, [] => none
  | _, [n] => some n
  | 0, _ :: _ :: _ => none
  | fuel + 1, a :: b :: rest =>
      mergeLoopF fuel (heapPush (a.1 + b.1, HTree.node a.2 b.2) rest)

/-- HuffmanTree::makeTree (lines 299-321). -/
def makeTree (s : List Nat) : Option HTree :=
  (mergeLoopF (buildHeap (makeFrequencyTable s)).length
    (buildHeap (makeFrequencyTable s))).map (fun p => p.2)

/-- HuffmanTree::makeCode (lines 430-438): depth-first traversal recording
    (data, path, max(length, 1)) at each leaf; left appends bit 0, right
    appends bit 1.  In the C++ the path accumulator is a uint64_t and the
    length a uint8_t, hence the reductions mod 2^64 and 2^8. -/
def makeCodeAux : HTree → Nat → Nat → List (Nat × Nat × Nat)
  | .leaf d, path, len => [(d, path, max len 1)]
  | .node l r, path, len =>
      makeCodeAux l ((path <<< 1 ||| 0) % 2 ^ 64) ((len + 1) % 2 ^ 8) ++
      makeCodeAux r ((path <<< 1 ||| 1) % 2 ^ 64) ((len + 1) % 2 ^ 8)

/-- The code table built by makeCode() (line 325-328), starting from the
    root with empty path and length 0.  The C++ stores the entries in an
    unordered_map via insert, which keeps the first entry per key; lookups
    below use the first matching entry of this list, which is the same. -/
def makeCodeTable (t : HTree) : List (Nat × Nat × Nat) := makeCodeAux t 0 0

/-- HuffmanTree::encode (lines 384-387): code.find(word)->second.  A word
    absent from the table makes the C++ dereference the end iterator;
    that undefined lookup is none. -/
def huffEncode (tbl : List (Nat × Nat × Nat)) (x : Nat) : Option (Nat × Nat) :=
  (tbl.find? (fun e => e.1 == x)).map (fun e => e.2)

/-- The w data bits of a leaf as stored by treeRepr (lines 499-500):
    (data >> bit) & 1 for bit = w-1 down to 0, most significant first. -/
def wordBits (w d : Nat) : List Bool := (List.range w).reverse.map (fun i => d.testBit i)

/-- The bits of a codeword as emitted by Huffman::compress (lines 556-557):
    (code >> bit) & 1 for bit = length-1 down to 0, most significant first. -/
def pathBits (p len : Nat) : List Bool := (List.range len).reverse.map (fun i => p.testBit i)

/-- HuffmanTree::treeRepr (lines 495-508): pre-order serialization, one
    framing bit per node (1 = leaf, followed by the w data bits; 0 =
    internal, followed by the left then the right subtree). -/
def treeRepr (w : Nat) : HTree → List Bool
  | .leaf d => true :: wordBits w d
  | .node l r => false :: (treeRepr w l ++ treeRepr w r)

/-- The data-reading loop of reconstructTree (lines 343-346 and 451-454):
    data |= bit << i for i = w-1 down to 0.  Running out of bits makes the
    C++ dereference the iterator at end: none. -/
def readWord : Nat → Nat → List Bool → Option (Nat × List Bool)
  | 0, acc, bits => some (acc, bits)
  | _ + 1, _, [] => none
  | k + 1, acc, b :: bs => readWord k (acc ||| (cond b 1 0) <<< k) bs

/-- HuffmanTree::reconstructTree (top-level form lines 333-354, recursive
    child-filling form lines 443-476; both parse the same grammar): read a
    framing bit, then either w data bits for a leaf, or a left subtree
    followed by a right subtree for an internal node.  Each parsing step
    consumes at least one bit, so fuel = number of available bits never
    runs out; every none marks the C++ dereferencing the bit iterator at
    or past the end of its buffer. -/
def reconstructTreeF (w : Nat) : Nat → List Bool → Option (HTree × List Bool)
  | _, [] => none
  | 0, _ :: _ => none
  | fuel + 1, b :: bs =>
    if b then
      (readWord w 0 bs).map (fun p => (HTree.leaf p.1, p.2))
    else
      match reconstructTreeF w fuel bs with
      | none => none
      | some (l, r1) =>
        match reconstructTreeF w fuel r1 with
        | none => none
        | some (r, r2) => some (HTree.node l r, r2)

/-- Tree reconstruction from a bit buffer, returning the tree and the
    iterator position after the serialized tree (fromCompressed, lines
    287-295; the makeCode() call there only fills the table of the
    reconstructed instance and does not change what decode returns). -/
def reconstructTree (w : Nat) (bits : List Bool) : Option (HTree × List Bool) :=
  reconstructTreeF w bits.length bits

/-- HuffmanTree::decode (lines 391-404): walk from the root, consuming one
    bit per internal node (0 = left, 1 = right) until a leaf is reached;
    return its data and the remaining bits.  A leaf root returns at once,
    consuming nothing.  Reaching an internal node with no bits left makes
    the C++ dereference the iterator at end: none. -/
def huffDecode (t : HTree) (bits : List Bool) : Option (Nat × List Bool) :=
  match t, bits with
  | .leaf d, bs => some (d, bs)
  | .node _ _, [] => none
  | .node l r, b :: bs => if b then huffDecode r bs else huffDecode l bs

/-- The encoding loop of Huffman::compress (lines 554-558): for each input
    word in order, append the bits of its codeword. -/
def huffEncodeAll (tbl : List (Nat × Nat × Nat)) : List Nat → Option (List Bool)
  | [] => some []
  | x :: xs =>
    match huffEncode tbl x with
    | none => none
    | some c => (huffEncodeAll tbl xs).map (fun rest => pathBits c.1 c.2 ++ rest)

/-- Huffman::compress (lines 543-560): the serialized tree followed by one
    codeword per input word. -/
def huffCompress (w : Nat) (s : List Nat) : Option (List Bool) :=
  match makeTree s with
  | none => none
  | some t => (huffEncodeAll (makeCodeTable t) s).map (fun pay => treeRepr w t ++ pay)

/-- The while-loop of Huffman::decompress (lines 574-578): decode symbols
    until the bit buffer is exhausted.  Every round on a tree with an
    internal root consumes at least one bit, so fuel = number of remaining
    bits never runs out on such trees; on a tree whose root is a leaf,
    decode consumes nothing, the loop never advances and the fuel running
    out (none) marks that the C++ loop runs forever. -/
def huffDecompressLoopF (t : HTree) : Nat → List Bool → Option (List Nat)
  | _, [] => some []
  | 0, _ :: _ => none
  | fuel + 1, b :: bs =>
    match huffDecode t (b :: bs) with
    | none => none
    | some (sym, rest) =>
      match huffDecompressLoopF t fuel rest with
      | none => none
      | some syms => some (sym :: syms)

/-- Huffman::decompress (lines 564-580): reconstruct the tree from the
    leading bits, then decode the remaining bits symbol by symbol. -/
def huffDecompress (w : Nat) (bits : List Bool) : Option (List Nat) :=
  match reconstructTree w bits with
  | none => none
  | some (t, rest) => huffDecompressLoopF t rest.length rest

/-! ## Bit-level helper lemmas -/

theorem rleMSB_eq (w : Nat) : rleMSB w = 2 ^ (w - 1) := by
  simp [rleMSB, Nat.shiftLeft_eq]

theorem rleMaxCount_eq {w : Nat} (hw : 1 ≤ w) : rleMaxCount w = 2 ^ (w - 1) - 1 := by
  have h2 : 2 ^ w = 2 * 2 ^ (w - 1) := by
    conv_lhs => rw [show w = (w - 1) + 1 by omega]
    rw [Nat.pow_succ]; ring
  have h1 : 1 ≤ 2 ^ (w - 1) := Nat.one_le_two_pow
  simp only [rleMaxCount, Nat.shiftRight_eq_div_pow, pow_one, h2]
  omega

theorem two_pow_lor_eq_add {k c : Nat} (h : c < 2 ^ k) : 2 ^ k ||| c = 2 ^ k + c := by
  apply Nat.eq_of_testBit_eq
  intro i
  rcases Nat.lt_trichotomy i k with hi | hi | hi
  · rw [Nat.testBit_or, Nat.testBit_two_pow, Nat.testBit_two_pow_add_gt hi]
    simp [Nat.ne_of_gt hi]
  · subst hi
    rw [Nat.testBit_or, Nat.testBit_two_pow_self, Nat.testBit_two_pow_add_eq,
      Nat.testBit_lt_two_pow h]
    simp
  · have hki : 2 ^ (k + 1) ≤ 2 ^ i := Nat.pow_le_pow_right (by norm_num) hi
    have hkk : 2 ^ (k + 1) = 2 * 2 ^ k := by rw [Nat.pow_succ]; ring
    have h1 : 2 ^ k + c < 2 ^ i := by omega
    have h2 : c < 2 ^ i := by omega
    rw [Nat.testBit_or, Nat.testBit_lt_two_pow h1, Nat.testBit_lt_two_pow h2,
      Nat.testBit_two_pow]
    simp [Nat.ne_of_lt hi]

theorem two_pow_lor_and_self {k c : Nat} : (2 ^ k ||| c) &&& 2 ^ k = 2 ^ k := by
  rw [Nat.and_two_pow]
  simp [Nat.testBit_or, Nat.testBit_two_pow_self]

/-! ## RLE round-trip -/

theorem rleDecompress_nil (w : Nat) : rleDecompress w [] = some [] := by
  rw [rleDecompress.eq_def]

theorem rleDecompress_cons_lit {w x : Nat} {xs : List Nat} (hx : x &&& rleMSB w = 0) :
    rleDecompress w (x :: xs) = (rleDecompress w xs).map (fun r => x :: r) := by
  rw [rleDecompress.eq_def]
  dsimp only
  rw [if_neg (by simp [hx])]

theorem rleDecompress_cons_run {w x y : Nat} {ys : List Nat} (hx : x &&& rleMSB w ≠ 0) :
    rleDecompress w (x :: y :: ys) =
      (rleDecompress w ys).map (fun r => List.replicate (x - rleMSB w) y ++ r) := by
  rw [rleDecompress.eq_def]
  dsimp only
  rw [if_pos hx]

theorem rleCompressAux_nilCase (w last count : Nat) :
    rleCompressAux w [] last count = rleFlush w last count := by
  rw [rleCompressAux.eq_def]

theorem rleCompressAux_consCase (w x last count : Nat) (xs : List Nat) :
    rleCompressAux w (x :: xs) last count =
      if x ≠ last ∨ count = rleMaxCount w then
        rleFlush w last count ++ rleCompressAux w xs x 1
      else rleCompressAux w xs last (count + 1) := by
  rw [rleCompressAux.eq_def]

theorem rleDecompress_flush (w last count : Nat) (rest : List Nat)
    (hw : 1 ≤ w) (h1 : 1 ≤ count) (h2 : count ≤ rleMaxCount w) :
    rleDecompress w (rleFlush w last count ++ rest) =
      (rleDecompress w rest).map (fun r => List.replicate count last ++ r) := by
  have hmax := rleMaxCount_eq hw
  have hone : 1 ≤ 2 ^ (w - 1) := Nat.one_le_two_pow
  have hcount : count < 2 ^ (w - 1) := by omega
  unfold rleFlush
  split
  case isTrue h =>
    obtain ⟨hc1, hmsb⟩ := h
    subst hc1
    rw [List.cons_append, List.nil_append, rleDecompress_cons_lit hmsb]
    simp
  case isFalse h =>
    have hand : (rleMSB w ||| count) &&& rleMSB w = rleMSB w := by
      rw [rleMSB_eq]; exact two_pow_lor_and_self
    have hmsbpos : rleMSB w ≠ 0 := by rw [rleMSB_eq]; omega
    have hsub : (rleMSB w ||| count) - rleMSB w = count := by
      rw [rleMSB_eq, two_pow_lor_eq_add hcount]; omega
    rw [List.cons_append, List.cons_append, List.nil_append,
      rleDecompress_cons_run (by rw [hand]; exact hmsbpos), hsub]

theorem rleCompressAux_roundtrip (w : Nat) (hw : 2 ≤ w) :
    ∀ (xs : List Nat) (last count : Nat), 1 ≤ count → count ≤ rleMaxCount w →
      rleDecompress w (rleCompressAux w xs last count) =
        some (List.replicate count last ++ xs) := by
  have hmax := rleMaxCount_eq (by omega : 1 ≤ w)
  have hone : 2 ≤ 2 ^ (w - 1) := by
    calc 2 = 2 ^ 1 := by norm_num
    _ ≤ 2 ^ (w - 1) := Nat.pow_le_pow_right (by norm_num) (by omega)
  intro xs
  induction xs with
  | nil =>
    intro last count h1 h2
    have := rleDecompress_flush w last count [] (by omega) h1 h2
    rw [List.append_nil, rleDecompress_nil] at this
    rw [rleCompressAux_nilCase, this]
    simp
  | cons x xs ih =>
    intro last count h1 h2
    rw [rleCompressAux_consCase]
    by_cases hc : x ≠ last ∨ count = rleMaxCount w
    · rw [if_pos hc, rleDecompress_flush w last count _ (by omega) h1 h2,
        ih x 1 (by omega) (by omega)]
      simp
    · rw [if_neg hc]
      push_neg at hc
      obtain ⟨hx, hcm⟩ := hc
      subst hx
      rw [ih x (count + 1) (by omega) (by omega)]
      rw [List.replicate_succ' count x]
      simp

theorem rleCompress_cons (w x : Nat) (xs : List Nat) :
    rleCompress w (x :: xs) = some (rleCompressAux w xs x 1) := by
  rw [rleCompress.eq_def]

/-- The RLE round-trip: decompressing the output of compress returns the
    input, for every nonempty sequence of w-bit words.  (The C++ word
    types have at least 8 bits; any width of at least 2 works.) -/
theorem rle_roundtrip {w : Nat} (s : List Nat) (hw : 2 ≤ w) (hs : s ≠ [])
    (hb : ∀ x ∈ s, x < 2 ^ w) :
    (rleCompress w s).bind (rleDecompress w) = some s := by
  have hone : 2 ≤ 2 ^ (w - 1) := by
    calc 2 = 2 ^ 1 := by norm_num
    _ ≤ 2 ^ (w - 1) := Nat.pow_le_pow_right (by norm_num) (by omega)
  have hmax := rleMaxCount_eq (by omega : 1 ≤ w)
  match s with
  | x :: xs =>
    rw [rleCompress_cons, Option.some_bind,
      rleCompressAux_roundtrip w hw xs x 1 (by omega) (by omega)]
    simp

/-- A run of k further occurrences of a, entered with pending count c,
    stays a single pending run while c + k fits below MAX_COUNT. -/
theorem rleCompressAux_replicate_le (w a : Nat) :
    ∀ (k c : Nat), 1 ≤ c → c + k ≤ rleMaxCount w →
      rleCompressAux w (List.replicate k a) a c = rleFlush w a (c + k) := by
  intro k
  induction k with
  | zero =>
    intro c h1 h2
    rw [List.replicate_zero, rleCompressAux_nilCase, Nat.add_zero]
  | succ k ih =>
    intro c h1 h2
    rw [List.replicate_succ, rleCompressAux_consCase,
      if_neg (by simp; omega), ih (c + 1) (by omega) (by omega)]
    congr 1
    omega

/-- A run that exceeds MAX_COUNT by exactly one is flushed as a full run
    of MAX_COUNT followed by a flush of the remaining single occurrence. -/
theorem rleCompressAux_replicate_over (w a : Nat) :
    ∀ (k c : Nat), 1 ≤ c → c + k = rleMaxCount w + 1 → 1 ≤ k →
      rleCompressAux w (List.replicate k a) a c =
        rleFlush w a (rleMaxCount w) ++ rleFlush w a 1 := by
  intro k
  induction k with
  | zero => omega
  | succ k ih =>
    intro c h1 h2 _
    rw [List.replicate_succ, rleCompressAux_consCase]
    by_cases hk : k = 0
    · subst hk
      have hc : c = rleMaxCount w := by omega
      rw [if_pos (Or.inr hc), hc, List.replicate_zero, rleCompressAux_nilCase]
    · rw [if_neg (by simp; omega), ih (c + 1) (by omega) (by omega) (by omega)]

/-- Claim C3 (amended): for any w-bit symbol a, a run of exactly
    MAX_COUNT = 2^(w-1)-1 repeats compresses to the single run-token pair
    (MSB | MAX_COUNT, a).  A run of MAX_COUNT + 1 repeats does NOT emit two
    run-token pairs in general: it emits that pair followed by the flush of
    the one leftover occurrence, which is a second run-token pair
    (MSB | 1, a) only when the top bit of a is set, and the lone literal
    word a when it is clear. -/
theorem claim_C3 (w a : Nat) (hw : 3 ≤ w) (ha : a < 2 ^ w) :
    rleCompress w (List.replicate (rleMaxCount w) a) =
        some [rleMSB w ||| rleMaxCount w, a] ∧
    rleCompress w (List.replicate (rleMaxCount w + 1) a) =
        some ([rleMSB w ||| rleMaxCount w, a] ++
          (if a &&& rleMSB w = 0 then [a] else [rleMSB w ||| 1, a])) := by
  have hone : 4 ≤ 2 ^ (w - 1) := by
    calc 4 = 2 ^ 2 := by norm_num
    _ ≤ 2 ^ (w - 1) := Nat.pow_le_pow_right (by norm_num) (by omega)
  have hmax := rleMaxCount_eq (by omega : 1 ≤ w)
  have hflushMax : rleFlush w a (rleMaxCount w) = [rleMSB w ||| rleMaxCount w, a] := by
    unfold rleFlush
    rw [if_neg (by rintro ⟨h, -⟩; omega)]
  have hflushOne : rleFlush w a 1 =
      (if a &&& rleMSB w = 0 then [a] else [rleMSB w ||| 1, a]) := by
    unfold rleFlush
    by_cases hmsb : a &&& rleMSB w = 0
    · rw [if_pos ⟨rfl, hmsb⟩, if_pos hmsb]
    · rw [if_neg (by rintro ⟨-, h⟩; exact hmsb h), if_neg hmsb]
  have hrep : List.replicate (rleMaxCount w) a = a :: List.replicate (rleMaxCount w - 1) a := by
    conv_lhs => rw [show rleMaxCount w = (rleMaxCount w - 1) + 1 by omega]
    rw [List.replicate_succ]
  constructor
  · rw [hrep, rleCompress_cons,
      rleCompressAux_replicate_le w a (rleMaxCount w - 1) 1 (by omega) (by omega),
      show 1 + (rleMaxCount w - 1) = rleMaxCount w by omega, hflushMax]
  · rw [List.replicate_succ, rleCompress_cons,
      rleCompressAux_replicate_over w a (rleMaxCount w) 1 (by omega) (by omega) (by omega),
      hflushMax, hflushOne]

/-! ## Huffman tree serialization round-trip -/

theorem wordBits_succ (k d : Nat) : wordBits (k + 1) d = d.testBit k :: wordBits k d := by
  simp [wordBits, List.range_succ]

theorem bit_shift_lor_mod (d k : Nat) :
    ((cond (d.testBit k) 1 0) <<< k) ||| d % 2 ^ k = d % 2 ^ (k + 1) := by
  apply Nat.eq_of_testBit_eq
  intro i
  rw [Nat.testBit_or, Nat.testBit_shiftLeft, Nat.testBit_mod_two_pow, Nat.testBit_mod_two_pow]
  rcases Nat.lt_trichotomy i k with hi | hi | hi
  · simp [Nat.not_le.mpr hi, hi, Nat.lt_succ_of_lt hi]
  · subst hi
    cases hd : d.testBit i <;> simp [hd]
  · have hcb : ∀ b : Bool, (cond b 1 0 : Nat).testBit (i - k) = false := by
      intro b
      apply Nat.testBit_lt_two_pow
      have h2 : 2 ≤ 2 ^ (i - k) := by
        calc 2 = 2 ^ 1 := by norm_num
        _ ≤ 2 ^ (i - k) := Nat.pow_le_pow_right (by norm_num) (by omega)
      cases b <;> simp <;> omega
    have hik : ¬ i < k + 1 := by omega
    have hik2 : ¬ i < k := by omega
    simp [hcb, hik, hik2]

theorem readWord_wordBits (d : Nat) :
    ∀ (k acc : Nat) (rest : List Bool),
      readWord k acc (wordBits k d ++ rest) = some (acc ||| d % 2 ^ k, rest) := by
  intro k
  induction k with
  | zero =>
    intro acc rest
    simp [wordBits, readWord, Nat.mod_one]
  | succ k ih =>
    intro acc rest
    rw [wordBits_succ, List.cons_append]
    rw [show readWord (k + 1) acc (d.testBit k :: (wordBits k d ++ rest)) =
      readWord k (acc ||| (cond (d.testBit k) 1 0) <<< k) (wordBits k d ++ rest) from by
        rw [readWord.eq_def]]
    rw [ih, Nat.or_assoc, bit_shift_lor_mod]

theorem readWord_wordBits_lt {w d : Nat} (rest : List Bool) (hd : d < 2 ^ w) :
    readWord w 0 (wordBits w d ++ rest) = some (d, rest) := by
  rw [readWord_wordBits]
  simp [Nat.mod_eq_of_lt hd]

theorem treeRepr_length_pos (w : Nat) (t : HTree) : 1 ≤ (treeRepr w t).length := by
  cases t <;> simp [treeRepr]

theorem reconstructTreeF_treeRepr (w : Nat) :
    ∀ (t : HTree) (fuel : Nat) (rest : List Bool),
      (∀ d ∈ leavesData t, d < 2 ^ w) → (treeRepr w t).length ≤ fuel →
      reconstructTreeF w fuel (treeRepr w t ++ rest) = some (t, rest) := by
  intro t
  induction t with
  | leaf d =>
    intro fuel rest hb hf
    have hd : d < 2 ^ w := hb d (by simp [leavesData])
    have hlen : (treeRepr w (.leaf d)).length = w + 1 := by simp [treeRepr, wordBits]
    match fuel with
    | 0 => omega
    | f + 1 =>
      rw [treeRepr, List.cons_append]
      rw [show reconstructTreeF w (f + 1) (true :: (wordBits w d ++ rest)) =
        (readWord w 0 (wordBits w d ++ rest)).map (fun p => (HTree.leaf p.1, p.2)) from by
          rw [reconstructTreeF.eq_def]; simp]
      rw [readWord_wordBits_lt rest hd]
      rfl
  | node l r ihl ihr =>
    intro fuel rest hb hf
    have hll := treeRepr_length_pos w l
    have hlr := treeRepr_length_pos w r
    have hlen : (treeRepr w (.node l r)).length =
        (treeRepr w l).length + (treeRepr w r).length + 1 := by
      simp [treeRepr]
    match fuel with
    | 0 => omega
    | f + 1 =>
      rw [treeRepr, List.cons_append, List.append_assoc]
      rw [show ∀ bs, reconstructTreeF w (f + 1) (false :: bs) =
        (match reconstructTreeF w f bs with
        | none => none
        | some (l0, r1) =>
          match reconstructTreeF w f r1 with
          | none => none
          | some (r0, r2) => some (HTree.node l0 r0, r2)) from by
          intro bs; rw [reconstructTreeF.eq_def]; simp]
      rw [ihl f (treeRepr w r ++ rest) (fun d hd => hb d (by simp [leavesData, hd]))
        (by omega)]
      dsimp only
      rw [ihr f rest (fun d hd => hb d (by simp [leavesData, hd])) (by omega)]

/-- Reconstruction consumes exactly the bits treeRepr produced and yields
    the same tree, leaving any following bits untouched. -/
theorem reconstructTree_treeRepr (w : Nat) (t : HTree) (rest : List Bool)
    (hb : ∀ d ∈ leavesData t, d < 2 ^ w) :
    reconstructTree w (treeRepr w t ++ rest) = some (t, rest) := by
  unfold reconstructTree
  exact reconstructTreeF_treeRepr w t _ rest hb (by simp)

/-! ## Codewords and decoding -/

theorem pathBits_zero (p : Nat) : pathBits p 0 = [] := by simp [pathBits]

theorem pathBits_succ (p n : Nat) : pathBits p (n + 1) = p.testBit n :: pathBits p n := by
  simp [pathBits, List.range_succ]

theorem pathBits_length (p len : Nat) : (pathBits p len).length = len := by simp [pathBits]

theorem testBit_two_mul_succ (p i : Nat) : (2 * p).testBit (i + 1) = p.testBit i := by
  rw [Nat.testBit_succ]
  congr 1
  omega

theorem testBit_two_mul_add_one_succ (p i : Nat) : (2 * p + 1).testBit (i + 1) = p.testBit i := by
  rw [Nat.testBit_succ]
  congr 1
  omega

theorem testBit_two_mul_zero (p : Nat) : (2 * p).testBit 0 = false := by
  rw [Nat.testBit_zero]
  simp [Nat.mul_mod_right]

theorem testBit_two_mul_add_one_zero (p : Nat) : (2 * p + 1).testBit 0 = true := by
  rw [Nat.testBit_zero, show (2 * p + 1) % 2 = 1 by omega]
  simp

theorem pathBits_two_mul (p n : Nat) : pathBits (2 * p) (n + 1) = pathBits p n ++ [false] := by
  induction n with
  | zero => simp [pathBits_succ, pathBits_zero, testBit_two_mul_zero]
  | succ n ih =>
    rw [pathBits_succ, ih, testBit_two_mul_succ, ← List.cons_append, ← pathBits_succ]

theorem pathBits_two_mul_add_one (p n : Nat) :
    pathBits (2 * p + 1) (n + 1) = pathBits p n ++ [true] := by
  induction n with
  | zero =>
    rw [pathBits_succ, pathBits_zero, testBit_two_mul_add_one_zero]
    simp [pathBits_zero]
  | succ n ih =>
    rw [pathBits_succ, ih, testBit_two_mul_add_one_succ, ← List.cons_append, ← pathBits_succ]

theorem two_mul_lor_one (p : Nat) : 2 * p ||| 1 = 2 * p + 1 := by
  apply Nat.eq_of_testBit_eq
  intro i
  cases i with
  | zero =>
    rw [Nat.testBit_or, testBit_two_mul_zero, testBit_two_mul_add_one_zero]
    simp
  | succ i =>
    have h1 : Nat.testBit 1 (i + 1) = false := by
      apply Nat.testBit_lt_two_pow
      have : 2 ≤ 2 ^ (i + 1) := by
        calc 2 = 2 ^ 1 := by norm_num
        _ ≤ 2 ^ (i + 1) := Nat.pow_le_pow_right (by norm_num) (by omega)
      omega
    rw [Nat.testBit_or, testBit_two_mul_succ, testBit_two_mul_add_one_succ, h1]
    simp

theorem makeCodeAux_leaf (d p len : Nat) :
    makeCodeAux (.leaf d) p len = [(d, p, max len 1)] := rfl

theorem makeCodeAux_node_raw (l r : HTree) (p len : Nat) :
    makeCodeAux (.node l r) p len =
      makeCodeAux l ((p <<< 1 ||| 0) % 2 ^ 64) ((len + 1) % 2 ^ 8) ++
      makeCodeAux r ((p <<< 1 ||| 1) % 2 ^ 64) ((len + 1) % 2 ^ 8) := rfl

/-- Inside the uint64/uint8 range the path and length arithmetic of
    makeCode is exact. -/
theorem makeCodeAux_node (l r : HTree) (p len : Nat) (hp2 : 2 * p + 1 < 2 ^ 64)
    (hlen : len + 1 < 2 ^ 8) :
    makeCodeAux (.node l r) p len =
      makeCodeAux l (2 * p) (len + 1) ++ makeCodeAux r (2 * p + 1) (len + 1) := by
  rw [makeCodeAux_node_raw]
  have hsh : p <<< 1 = 2 * p := by rw [Nat.shiftLeft_eq]; ring
  rw [hsh]
  rw [show 2 * p ||| 0 = 2 * p from Nat.or_zero _, two_mul_lor_one,
    Nat.mod_eq_of_lt (show 2 * p < 2 ^ 64 by omega),
    Nat.mod_eq_of_lt (show 2 * p + 1 < 2 ^ 64 from hp2),
    Nat.mod_eq_of_lt hlen]

theorem huffDecode_leaf (d : Nat) (bits : List Bool) :
    huffDecode (.leaf d) bits = some (d, bits) := rfl

theorem huffDecode_node_cons (l r : HTree) (b : Bool) (bs : List Bool) :
    huffDecode (.node l r) (b :: bs) = if b then huffDecode r bs else huffDecode l bs := rfl

theorem makeCodeAux_keys (t : HTree) :
    ∀ p len, (makeCodeAux t p len).map (fun e => e.1) = leavesData t := by
  induction t with
  | leaf d => intro p len; rfl
  | node l r ihl ihr =>
    intro p len
    rw [makeCodeAux_node_raw, List.map_append, ihl, ihr, leavesData]

/-- Every code-table entry of a subtree sitting below prefix (p, len)
    extends that prefix, and feeding the extension to decode walks exactly
    to the entry's leaf. -/
theorem makeCodeAux_decode (t : HTree) :
    ∀ (p len : Nat), 1 ≤ len → htDepth t + len ≤ 64 → p < 2 ^ len →
      ∀ e ∈ makeCodeAux t p len,
        ∃ loc, pathBits e.2.1 e.2.2 = pathBits p len ++ loc ∧
          ∀ rest, huffDecode t (loc ++ rest) = some (e.1, rest) := by
  induction t with
  | leaf d =>
    intro p len h1 _ _ e he
    rw [makeCodeAux_leaf] at he
    simp only [List.mem_singleton] at he
    subst he
    refine ⟨[], ?_, ?_⟩
    · rw [List.append_nil]
      show pathBits p (max len 1) = pathBits p len
      rw [Nat.max_eq_left h1]
    · intro rest
      rw [List.nil_append, huffDecode_leaf]
  | node l r ihl ihr =>
    intro p len h1 hd hp e he
    simp only [htDepth] at hd
    have hlen1 : len + 1 ≤ 64 := by omega
    have hp2 : 2 * p + 1 < 2 ^ 64 := by
      have ha : 2 * p + 1 < 2 ^ (len + 1) := by rw [pow_succ]; omega
      have hb : 2 ^ (len + 1) ≤ 2 ^ 64 := Nat.pow_le_pow_right (by norm_num) hlen1
      omega
    rw [makeCodeAux_node l r p len hp2 (by norm_num; omega)] at he
    rcases List.mem_append.mp he with hel | her
    · obtain ⟨loc, hpb, hdec⟩ :=
        ihl (2 * p) (len + 1) (by omega) (by omega) (by rw [pow_succ]; omega) e hel
      refine ⟨false :: loc, ?_, ?_⟩
      · rw [hpb, pathBits_two_mul, List.append_assoc, List.singleton_append]
      · intro rest
        rw [List.cons_append, huffDecode_node_cons, if_neg Bool.false_ne_true]
        exact hdec rest
    · obtain ⟨loc, hpb, hdec⟩ :=
        ihr (2 * p + 1) (len + 1) (by omega) (by omega) (by rw [pow_succ]; omega) e her
      refine ⟨true :: loc, ?_, ?_⟩
      · rw [hpb, pathBits_two_mul_add_one, List.append_assoc, List.singleton_append]
      · intro rest
        rw [List.cons_append, huffDecode_node_cons, if_pos rfl]
        exact hdec rest

theorem makeCodeTable_node (l r : HTree) :
    makeCodeTable (.node l r) = makeCodeAux l 0 1 ++ makeCodeAux r 1 1 := by
  unfold makeCodeTable
  rw [makeCodeAux_node l r 0 0 (by norm_num) (by norm_num)]

/-- For a tree with an internal root, every code-table entry has a
    positive bit length, and decoding the entry's codeword from the root
    returns the entry's symbol and consumes exactly the codeword. -/
theorem makeCodeTable_decode {l r : HTree} (hd : htDepth (.node l r) ≤ 64) :
    ∀ e ∈ makeCodeTable (.node l r),
      1 ≤ e.2.2 ∧
      ∀ rest, huffDecode (.node l r) (pathBits e.2.1 e.2.2 ++ rest) = some (e.1, rest) := by
  intro e he
  rw [makeCodeTable_node] at he
  simp only [htDepth] at hd
  have h01 : pathBits 0 1 = [false] := by decide
  have h11 : pathBits 1 1 = [true] := by decide
  rcases List.mem_append.mp he with hel | her
  · obtain ⟨loc, hpb, hdec⟩ :=
      makeCodeAux_decode l 0 1 (by omega) (by omega) (by norm_num) e hel
    have hlen := congrArg List.length hpb
    rw [pathBits_length, List.length_append, pathBits_length] at hlen
    refine ⟨by omega, ?_⟩
    intro rest
    rw [hpb, h01, List.singleton_append, List.cons_append, huffDecode_node_cons,
      if_neg Bool.false_ne_true]
    exact hdec rest
  · obtain ⟨loc, hpb, hdec⟩ :=
      makeCodeAux_decode r 1 1 (by omega) (by omega) (by norm_num) e her
    have hlen := congrArg List.length hpb
    rw [pathBits_length, List.length_append, pathBits_length] at hlen
    refine ⟨by omega, ?_⟩
    intro rest
    rw [hpb, h11, List.singleton_append, List.cons_append, huffDecode_node_cons,
      if_pos rfl]
    exact hdec rest

/-! ## Structure of the constructed tree -/

theorem heapPush_length (n : Nat × HTree) :
    ∀ h : List (Nat × HTree), (heapPush n h).length = h.length + 1 := by
  intro h
  induction h with
  | nil => rfl
  | cons m ms ih =>
    rw [heapPush.eq_def]
    dsimp only
    by_cases hc : n.1 < m.1
    · rw [if_pos hc]
      simp
    · rw [if_neg hc]
      simp [ih]

theorem heapPush_perm (n : Nat × HTree) :
    ∀ h : List (Nat × HTree), heapPush n h ~ n :: h := by
  intro h
  induction h with
  | nil => exact List.Perm.refl _
  | cons m ms ih =>
    rw [heapPush.eq_def]
    dsimp only
    by_cases hc : n.1 < m.1
    · rw [if_pos hc]
    · rw [if_neg hc]
      exact (ih.cons m).trans (List.Perm.swap n m ms)

theorem heapLeaves_perm : ∀ {h1 h2 : List (Nat × HTree)}, h1 ~ h2 →
    heapLeaves h1 ~ heapLeaves h2 := by
  intro h1 h2 hp
  induction hp with
  | nil => exact List.Perm.refl _
  | cons x _ ih =>
    simp only [heapLeaves]
    exact List.Perm.append_left _ ih
  | swap x y l =>
    simp only [heapLeaves]
    rw [← List.append_assoc, ← List.append_assoc]
    exact List.Perm.append_right _ List.perm_append_comm
  | trans _ _ ih1 ih2 => exact ih1.trans ih2

theorem mergeLoopF_leaves :
    ∀ (fuel : Nat) (h : List (Nat × HTree)), 1 ≤ h.length → h.length ≤ fuel + 1 →
      ∃ ft, mergeLoopF fuel h = some ft ∧ leavesData ft.2 ~ heapLeaves h := by
  intro fuel
  induction fuel with
  | zero =>
    intro h h1 h2
    match h with
    | [] => simp at h1
    | [n] => exact ⟨n, rfl, by simp [heapLeaves]⟩
    | a :: b :: rest =>
      exfalso
      simp [List.length_cons] at h2
  | succ fuel ih =>
    intro h h1 h2
    match h with
    | [] => simp at h1
    | [n] => exact ⟨n, rfl, by simp [heapLeaves]⟩
    | a :: b :: rest =>
      have hlen := heapPush_length (a.1 + b.1, HTree.node a.2 b.2) rest
      have hrl : (a :: b :: rest).length = rest.length + 2 := by simp
      obtain ⟨ft, hft, hperm⟩ := ih (heapPush (a.1 + b.1, .node a.2 b.2) rest)
        (by omega) (by omega)
      refine ⟨ft, hft, ?_⟩
      calc leavesData ft.2
        ~ heapLeaves (heapPush (a.1 + b.1, .node a.2 b.2) rest) := hperm
        _ ~ heapLeaves ((a.1 + b.1, HTree.node a.2 b.2) :: rest) :=
          heapLeaves_perm (heapPush_perm _ _)
        _ = heapLeaves (a :: b :: rest) := by
          simp [heapLeaves, leavesData, List.append_assoc]

theorem buildHeapAux_length :
    ∀ (tbl : List (Nat × Nat)) (h0 : List (Nat × HTree)),
      (tbl.foldl (fun h p => heapPush (p.2, HTree.leaf p.1) h) h0).length =
        tbl.length + h0.length := by
  intro tbl
  induction tbl with
  | nil => intro h0; simp
  | cons p ps ih =>
    intro h0
    rw [List.foldl_cons, ih, heapPush_length]
    simp
    omega

theorem buildHeap_length (tbl : List (Nat × Nat)) :
    (buildHeap tbl).length = tbl.length := by
  unfold buildHeap
  rw [buildHeapAux_length]
  rfl

theorem buildHeapAux_leaves :
    ∀ (tbl : List (Nat × Nat)) (h0 : List (Nat × HTree)),
      heapLeaves (tbl.foldl (fun h p => heapPush (p.2, HTree.leaf p.1) h) h0) ~
        tbl.map (fun p => p.1) ++ heapLeaves h0 := by
  intro tbl
  induction tbl with
  | nil => intro h0; simp [List.foldl]
  | cons p ps ih =>
    intro h0
    rw [List.foldl_cons]
    refine (ih _).trans ?_
    have h1 : heapLeaves (heapPush (p.2, HTree.leaf p.1) h0) ~ p.1 :: heapLeaves h0 := by
      refine (heapLeaves_perm (heapPush_perm _ _)).trans ?_
      simp [heapLeaves, leavesData]
    refine (List.Perm.append_left _ h1).trans ?_
    exact List.perm_middle

theorem buildHeap_leaves (tbl : List (Nat × Nat)) :
    heapLeaves (buildHeap tbl) ~ tbl.map (fun p => p.1) := by
  unfold buildHeap
  refine (buildHeapAux_leaves tbl []).trans ?_
  simp [heapLeaves]

theorem makeFrequencyTable_keys (s : List Nat) :
    (makeFrequencyTable s).map (fun p => p.1) = List.insertionSort (· ≤ ·) s.dedup := by
  unfold makeFrequencyTable
  rw [List.map_map]
  exact List.map_id _

/-- The leaves of the constructed tree are exactly the distinct input
    symbols, as a permutation of the sorted frequency-table keys. -/
theorem makeTree_leaves {s : List Nat} {t : HTree} (hmk : makeTree s = some t) :
    leavesData t ~ List.insertionSort (· ≤ ·) s.dedup := by
  unfold makeTree at hmk
  rw [Option.map_eq_some'] at hmk
  obtain ⟨ft, hft, rfl⟩ := hmk
  have hlen : 1 ≤ (buildHeap (makeFrequencyTable s)).length := by
    by_contra hc
    have h0 : buildHeap (makeFrequencyTable s) = [] := by
      cases hbh : buildHeap (makeFrequencyTable s)
      · rfl
      · rw [hbh] at hc; simp at hc
    rw [h0] at hft
    rw [show ∀ f, mergeLoopF f ([] : List (Nat × HTree)) = none from fun f => by
      cases f <;> rfl] at hft
    exact Option.noConfusion hft
  obtain ⟨ft2, hft2, hperm⟩ := mergeLoopF_leaves (buildHeap (makeFrequencyTable s)).length
    (buildHeap (makeFrequencyTable s)) hlen (by omega)
  rw [hft] at hft2
  have hfteq : ft2 = ft := by
    injection hft2 with h
    exact h.symm
  subst hfteq
  refine hperm.trans ?_
  refine (buildHeap_leaves _).trans ?_
  rw [makeFrequencyTable_keys]

theorem makeTree_leaves_mem {s : List Nat} {t : HTree} (hmk : makeTree s = some t) :
    ∀ x, x ∈ leavesData t ↔ x ∈ s := by
  intro x
  rw [(makeTree_leaves hmk).mem_iff,
    (List.perm_insertionSort (· ≤ ·) s.dedup).mem_iff, List.mem_dedup]

theorem makeTree_leaves_length {s : List Nat} {t : HTree} (hmk : makeTree s = some t) :
    (leavesData t).length = s.dedup.length := by
  rw [(makeTree_leaves hmk).length_eq,
    (List.perm_insertionSort (· ≤ ·) s.dedup).length_eq]

theorem makeTree_isSome {s : List Nat} (hs : s ≠ []) : ∃ t, makeTree s = some t := by
  have h1 : s.dedup ≠ [] := by
    match s with
    | x :: xs =>
      intro hc
      have hx : x ∈ List.dedup (x :: xs) := List.mem_dedup.mpr (List.mem_cons_self x xs)
      rw [hc] at hx
      simp at hx
  have htbl : 1 ≤ (makeFrequencyTable s).length := by
    unfold makeFrequencyTable
    rw [List.length_map, (List.perm_insertionSort (· ≤ ·) s.dedup).length_eq]
    cases hd : s.dedup
    · exact absurd hd h1
    · simp
  have hheap : 1 ≤ (buildHeap (makeFrequencyTable s)).length := by
    rw [buildHeap_length]; omega
  obtain ⟨ft, hft, _⟩ := mergeLoopF_leaves (buildHeap (makeFrequencyTable s)).length
    (buildHeap (makeFrequencyTable s)) hheap (by omega)
  refine ⟨ft.2, ?_⟩
  unfold makeTree
  rw [hft]
  rfl

/-! ## Huffman round-trip -/

theorem huffEncode_mem {tbl : List (Nat × Nat × Nat)} {x : Nat}
    (hx : x ∈ tbl.map (fun e => e.1)) :
    ∃ e ∈ tbl, e.1 = x ∧ huffEncode tbl x = some e.2 := by
  unfold huffEncode
  obtain ⟨e0, he0, rfl⟩ := List.mem_map.mp hx
  have hfind : (tbl.find? (fun e => e.1 == e0.1)).isSome := by
    rw [List.find?_isSome]
    exact ⟨e0, he0, by simp⟩
  obtain ⟨e, he⟩ := Option.isSome_iff_exists.mp hfind
  refine ⟨e, List.mem_of_find?_eq_some he, ?_, ?_⟩
  · have := List.find?_some he
    simpa using this
  · rw [he]
    rfl

theorem huffEncodeAll_cons (tbl : List (Nat × Nat × Nat)) (x : Nat) (xs : List Nat) :
    huffEncodeAll tbl (x :: xs) =
      match huffEncode tbl x with
      | none => none
      | some c => (huffEncodeAll tbl xs).map (fun rest => pathBits c.1 c.2 ++ rest) := rfl

theorem huffEncodeAll_some {tbl : List (Nat × Nat × Nat)} :
    ∀ (s : List Nat), (∀ x ∈ s, (huffEncode tbl x).isSome) →
      ∃ pay, huffEncodeAll tbl s = some pay := by
  intro s
  induction s with
  | nil => intro _; exact ⟨[], rfl⟩
  | cons x xs ih =>
    intro hall
    obtain ⟨c, hc⟩ := Option.isSome_iff_exists.mp (hall x (by simp))
    obtain ⟨pay, hpay⟩ := ih (fun y hy => hall y (by simp [hy]))
    refine ⟨pathBits c.1 c.2 ++ pay, ?_⟩
    rw [huffEncodeAll_cons, hc, hpay]
    rfl

theorem makeCodeTable_keys (t : HTree) :
    (makeCodeTable t).map (fun e => e.1) = leavesData t := makeCodeAux_keys t 0 0

theorem huffDecompressLoopF_nil (t : HTree) (fuel : Nat) :
    huffDecompressLoopF t fuel [] = some [] := by
  cases fuel <;> rfl

theorem huffDecompressLoopF_cons (t : HTree) (fuel : Nat) (b : Bool) (bs : List Bool) :
    huffDecompressLoopF t (fuel + 1) (b :: bs) =
      match huffDecode t (b :: bs) with
      | none => none
      | some (sym, rest) =>
        match huffDecompressLoopF t fuel rest with
        | none => none
        | some syms => some (sym :: syms) := rfl

/-- Decoding the concatenated codewords of the input symbols with fuel at
    least the number of payload bits returns exactly the input symbols. -/
theorem decompressLoop_roundtrip {l r : HTree} (hd : htDepth (.node l r) ≤ 64) :
    ∀ (s : List Nat) (pay : List Bool) (fuel : Nat),
      (∀ x ∈ s, x ∈ leavesData (.node l r)) →
      huffEncodeAll (makeCodeTable (.node l r)) s = some pay →
      pay.length ≤ fuel →
      huffDecompressLoopF (.node l r) fuel pay = some s := by
  intro s
  induction s with
  | nil =>
    intro pay fuel _ hpay _
    rw [show huffEncodeAll (makeCodeTable (.node l r)) [] = some [] from rfl] at hpay
    injection hpay with h
    subst h
    exact huffDecompressLoopF_nil _ _
  | cons x xs ih =>
    intro pay fuel hmem hpay hf
    rw [huffEncodeAll_cons] at hpay
    have hx : x ∈ (makeCodeTable (.node l r)).map (fun e => e.1) := by
      rw [makeCodeTable_keys]
      exact hmem x (by simp)
    obtain ⟨e, hetbl, hex, henc⟩ := huffEncode_mem hx
    rw [henc] at hpay
    cases hrec : huffEncodeAll (makeCodeTable (.node l r)) xs with
    | none =>
      rw [hrec] at hpay
      exact Option.noConfusion hpay
    | some pay2 =>
      rw [hrec] at hpay
      have hpayeq : pathBits e.2.1 e.2.2 ++ pay2 = pay := by
        simpa using hpay
      obtain ⟨hlen1, hdec⟩ := makeCodeTable_decode hd e hetbl
      have hplen : (pathBits e.2.1 e.2.2).length = e.2.2 := pathBits_length _ _
      subst hpayeq
      rw [List.length_append] at hf
      cases hcw : pathBits e.2.1 e.2.2 with
      | nil => rw [hcw] at hplen; simp at hplen; omega
      | cons b bs =>
        match fuel with
        | 0 =>
          exfalso
          omega
        | f + 1 =>
          rw [List.cons_append, huffDecompressLoopF_cons,
            show huffDecode (HTree.node l r) (b :: (bs ++ pay2)) = some (e.1, pay2) from by
              rw [← List.cons_append, ← hcw]; exact hdec pay2]
          dsimp only
          rw [ih pay2 f (fun y hy => hmem y (by simp [hy])) hrec (by omega), hex]

/-- Round-trip of the full Huffman codec on any input with at least two
    distinct symbols whose tree is at most 64 levels deep (so that the
    uint64 path accumulator and uint8 length of makeCode are exact). -/
theorem huff_roundtrip {w : Nat} (s : List Nat) (hs : s ≠ [])
    (hb : ∀ x ∈ s, x < 2 ^ w) (h2 : 2 ≤ s.dedup.length)
    (hdep : htDepth ((makeTree s).getD (HTree.leaf 0)) ≤ 64) :
    (huffCompress w s).bind (huffDecompress w) = some s := by
  obtain ⟨t, hmk⟩ := makeTree_isSome hs
  rw [hmk] at hdep
  simp only [Option.getD_some] at hdep
  have hlen : (leavesData t).length = s.dedup.length := makeTree_leaves_length hmk
  obtain ⟨l, r, rfl⟩ : ∃ l r, t = .node l r := by
    cases t with
    | leaf d =>
      exfalso
      simp [leavesData] at hlen
      omega
    | node l r => exact ⟨l, r, rfl⟩
  have hmem : ∀ x ∈ s, x ∈ leavesData (.node l r) := fun x hx =>
    (makeTree_leaves_mem hmk x).mpr hx
  have hencSome : ∀ x ∈ s, (huffEncode (makeCodeTable (.node l r)) x).isSome := by
    intro x hx
    obtain ⟨e, he, hex, henc⟩ := huffEncode_mem
      (by rw [makeCodeTable_keys]; exact hmem x hx)
    rw [henc]
    rfl
  obtain ⟨pay, hpay⟩ := huffEncodeAll_some s hencSome
  have hcomp : huffCompress w s = some (treeRepr w (.node l r) ++ pay) := by
    unfold huffCompress
    rw [hmk]
    dsimp only
    rw [hpay]
    rfl
  rw [hcomp, Option.some_bind]
  unfold huffDecompress
  have hleafb : ∀ d ∈ leavesData (.node l r), d < 2 ^ w := fun d hd2 =>
    hb d ((makeTree_leaves_mem hmk d).mp hd2)
  rw [reconstructTree_treeRepr w _ pay hleafb]
  exact decompressLoop_roundtrip hdep s pay pay.length hmem hpay (le_refl _)

/-! ## Helpers for the three-symbol frequency scenario -/

theorem dedup_perm_triple (s : List Nat) (u v q : Nat)
    (huv : u ≠ v) (huq : u ≠ q) (hvq : v ≠ q)
    (hmem : ∀ x, x ∈ s ↔ x = u ∨ x = v ∨ x = q) : s.dedup ~ [u, v, q] := by
  refine (List.perm_ext_iff_of_nodup (List.nodup_dedup s) (by simp [huv, huq, hvq])).mpr ?_
  intro x
  rw [List.mem_dedup, hmem x]
  simp

theorem sortedTriple_eq (s : List Nat) (u v q : Nat) (hdp : s.dedup ~ [u, v, q])
    (h1 : u < v) (h2 : v < q) :
    List.insertionSort (· ≤ ·) s.dedup = [u, v, q] := by
  refine List.eq_of_perm_of_sorted ((List.perm_insertionSort _ _).trans hdp)
    (List.sorted_insertionSort _ _) ?_
  simp only [List.sorted_cons, List.mem_cons]
  refine ⟨?_, ?_, ?_⟩
  · intro y hy
    simp at hy
    rcases hy with rfl | rfl <;> omega
  · intro y hy
    simp at hy
    subst hy
    omega
  · simp

theorem huffEncodeAll_length (tbl : List (Nat × Nat × Nat)) :
    ∀ (s : List Nat) (pay : List Bool), huffEncodeAll tbl s = some pay →
      pay.length = (s.map (fun x => ((huffEncode tbl x).getD (0, 0)).2)).sum := by
  intro s
  induction s with
  | nil =>
    intro pay h
    injection h with h
    subst h
    rfl
  | cons x xs ih =>
    intro pay h
    rw [huffEncodeAll_cons] at h
    cases hx : huffEncode tbl x with
    | none =>
      rw [hx] at h
      exact Option.noConfusion h
    | some cx =>
      rw [hx] at h
      cases hxs : huffEncodeAll tbl xs with
      | none =>
        rw [hxs] at h
        exact Option.noConfusion h
      | some pay2 =>
        rw [hxs] at h
        have hpay : pathBits cx.1 cx.2 ++ pay2 = pay := by simpa using h
        rw [← hpay, List.length_append, pathBits_length, ih pay2 hxs]
        simp [hx]

/-! ## Claim theorems -/

/-- Claim C1 (amended): decompress after compress is the identity on every
    nonempty sequence of w-bit words for the RLE codec; for the Huffman
    codec the same holds provided the input has at least two distinct
    symbols (with a single distinct symbol the decompression loop never
    advances, see the counterexample) and the constructed tree is at most
    64 levels deep, so that the uint64 path accumulator of makeCode is
    exact (any input with at most 65 distinct symbols qualifies, and
    exceeding 64 levels requires an input of at least Fibonacci(66), about
    4 * 10^13, symbols). -/
theorem claim_C1 :
    (∀ (w : Nat) (s : List Nat), 2 ≤ w → s ≠ [] → (∀ x ∈ s, x < 2 ^ w) →
      (rleCompress w s).bind (rleDecompress w) = some s) ∧
    (∀ (w : Nat) (s : List Nat), s ≠ [] → (∀ x ∈ s, x < 2 ^ w) →
      2 ≤ s.dedup.length → htDepth ((makeTree s).getD (HTree.leaf 0)) ≤ 64 →
      (huffCompress w s).bind (huffDecompress w) = some s) :=
  ⟨fun _ s hw hs hb => rle_roundtrip s hw hs hb,
   fun _ s hs hb h2 hdep => huff_roundtrip s hs hb h2 hdep⟩

/-- Claim C1, counterexample: on the nonempty 8-bit input [5] the Huffman
    codec does not round-trip: compression succeeds, but decompression
    reconstructs a tree whose root is a leaf and its while-loop consumes
    no bit and never terminates (modelled as none), so the composition is
    not some [5]. -/
theorem claim_C1_cex :
    (huffCompress 8 [5]).isSome = true ∧
    (huffCompress 8 [5]).bind (huffDecompress 8) = none ∧
    (huffCompress 8 [5]).bind (huffDecompress 8) ≠ some [5] := by
  refine ⟨by decide, by decide, by decide⟩

theorem claim_C1_witness :
    (rleCompress 8 [200, 200, 7]).bind (rleDecompress 8) = some [200, 200, 7] ∧
    (huffCompress 8 [5, 6, 6]).bind (huffDecompress 8) = some [5, 6, 6] :=
  ⟨claim_C1.1 8 [200, 200, 7] (by decide) (by decide) (by decide),
   claim_C1.2 8 [5, 6, 6] (by decide) (by decide) (by decide) (by decide)⟩

/-- Claim C2, code evaluated at the failing input: on the single-distinct-
    symbol 8-bit input [5, 5] the tree is the lone leaf 5, the code table
    does assign the 1-bit placeholder code (5, path 0, length 1), and
    compression succeeds (tree serialization plus one 0 bit per symbol);
    but decompression never terminates (none): decode at the leaf root
    consumes no bit, so the while-loop of Huffman::decompress never
    advances and the claimed round-trip fails. -/
theorem claim_C2 :
    makeTree [5, 5] = some (HTree.leaf 5) ∧
    makeCodeTable (HTree.leaf 5) = [(5, 0, 1)] ∧
    huffCompress 8 [5, 5] =
      some [true, false, false, false, false, false, true, false, true, false, false] ∧
    (huffCompress 8 [5, 5]).bind (huffDecompress 8) = none := by
  refine ⟨by decide, by decide, by decide, by decide⟩

/-- Claim C3, counterexample: with w = 8 (MAX_COUNT = 127) the symbol 5
    repeated 128 = MAX_COUNT + 1 times compresses to the three words
    [0x80 | 127, 5, 5] - a run-token pair followed by a lone literal - and
    not to the two run-token pairs [0x80 | 127, 5, 0x80 | 1, 5]. -/
theorem claim_C3_cex :
    rleCompress 8 (List.replicate 128 5) = some [255, 5, 5] ∧
    [255, 5, 5] ≠ [255, 5, 129, 5] := by
  refine ⟨by decide, by decide⟩

theorem claim_C3_witness :
    rleCompress 8 (List.replicate (rleMaxCount 8) 5) =
        some [rleMSB 8 ||| rleMaxCount 8, 5] ∧
    rleCompress 8 (List.replicate (rleMaxCount 8 + 1) 5) =
        some ([rleMSB 8 ||| rleMaxCount 8, 5] ++
          (if 5 &&& rleMSB 8 = 0 then [5] else [rleMSB 8 ||| 1, 5])) :=
  claim_C3 8 5 (by decide) (by decide)

/-- Claim C4, code evaluated at the failing input: neither codec reports a
    distinguishable EmptyInput error on an empty sequence.  RLE::compress
    dereferences begin with no element there, and HuffmanTree::makeTree
    calls top() on an empty priority queue - both undefined behaviour,
    modelled as none. -/
theorem claim_C4 :
    rleCompress 8 ([] : List Nat) = none ∧
    makeTree ([] : List Nat) = none ∧
    huffCompress 8 ([] : List Nat) = none := by
  refine ⟨by decide, by decide, by decide⟩

/-- Claim C5, code evaluated at the failing input: the code has no
    TruncatedStream error.  On the 1-bit stream [1] (a leaf marker with no
    data bits behind it, w = 8) tree reconstruction runs off the end of
    the bit source, and decode at an internal root with no bits left does
    the same - both dereference the iterator at end (undefined behaviour,
    modelled as none) instead of failing detectably. -/
theorem claim_C5 :
    reconstructTree 8 [true] = none ∧
    huffDecode (HTree.node (HTree.leaf 0) (HTree.leaf 1)) [] = none ∧
    huffDecompress 8 [true] = none := by
  refine ⟨by decide, by decide, by decide⟩

/-- Claim C6: the code table derived from any tree that makeTree built
    from an input is prefix-free - for entries with distinct symbols,
    neither codeword (at its recorded bit length) is a bit-prefix of the
    other.  The depth bound matches the spec data model of codewords as
    unsigned integers of up to 64 bits, within which the uint64 path
    accumulator of makeCode is exact. -/
theorem claim_C6 (s : List Nat) (t : HTree)
    (hmk : makeTree s = some t) (hdep : htDepth t ≤ 64) :
    ∀ e1 ∈ makeCodeTable t, ∀ e2 ∈ makeCodeTable t, e1.1 ≠ e2.1 →
      ¬ (pathBits e1.2.1 e1.2.2 <+: pathBits e2.2.1 e2.2.2) := by
  intro e1 he1 e2 he2 hne hpre
  cases t with
  | leaf d =>
    rw [show makeCodeTable (.leaf d) = [(d, 0, 1)] from rfl] at he1 he2
    simp only [List.mem_singleton] at he1 he2
    rw [he1, he2] at hne
    exact hne rfl
  | node l r =>
    obtain ⟨suf, hsuf⟩ := hpre
    obtain ⟨-, hdec1⟩ := makeCodeTable_decode hdep e1 he1
    obtain ⟨-, hdec2⟩ := makeCodeTable_decode hdep e2 he2
    have h1 := hdec1 suf
    have h2 := hdec2 []
    rw [List.append_nil, ← hsuf] at h2
    rw [h1] at h2
    simp only [Option.some.injEq, Prod.mk.injEq] at h2
    exact hne h2.1

theorem claim_C6_witness :
    ¬ (pathBits 0 1 <+: pathBits 1 1) :=
  claim_C6 [5, 6, 6] (HTree.node (HTree.leaf 5) (HTree.leaf 6))
    (by decide) (by decide) (5, 0, 1) (by decide) (6, 1, 1) (by decide) (by decide)

/-- Claim C7: reconstructing a tree from its treeRepr serialization
    consumes exactly the serialized bits (any appended bits are returned
    as the remaining cursor position) and the reconstructed tree derives
    the identical code table - symbol, codeword and bit length. -/
theorem claim_C7 (w : Nat) (s : List Nat) (t : HTree) (hmk : makeTree s = some t)
    (hb : ∀ x ∈ s, x < 2 ^ w) :
    ∀ rest, (reconstructTree w (treeRepr w t ++ rest)).map
        (fun p => (makeCodeTable p.1, p.2)) = some (makeCodeTable t, rest) := by
  intro rest
  rw [reconstructTree_treeRepr w t rest
    (fun d hd => hb d ((makeTree_leaves_mem hmk d).mp hd))]
  rfl

theorem claim_C7_witness :
    (reconstructTree 8 (treeRepr 8 (HTree.node (HTree.leaf 5) (HTree.leaf 6)) ++ [true])).map
        (fun p => (makeCodeTable p.1, p.2)) =
      some (makeCodeTable (HTree.node (HTree.leaf 5) (HTree.leaf 6)), [true]) :=
  claim_C7 8 [5, 6, 6] (HTree.node (HTree.leaf 5) (HTree.leaf 6))
    (by decide) (by decide) [true]

/-- Claim C8: on the 8-bit input [5,5,5,5,2,2,9] RLE::compress emits
    exactly Run(4,5), Run(2,2), Literal(9), i.e. the five words
    [0x80 | 4, 5, 0x80 | 2, 2, 9]; the lone 9 stays a plain literal
    because its top bit is clear. -/
theorem claim_C8 :
    rleCompress 8 [5, 5, 5, 5, 2, 2, 9] = some [128 ||| 4, 5, 128 ||| 2, 2, 9] ∧
    9 &&& rleMSB 8 = 0 := by
  refine ⟨by decide, by decide⟩

/-- Claim C10: decode on a tree whose root is a leaf returns the root's
    data together with the unchanged bit iterator - zero bits are
    consumed, whatever bits are available. -/
theorem claim_C10 (d : Nat) (bits : List Bool) :
    huffDecode (HTree.leaf d) bits = some (d, bits) := rfl

/-- Claim C9: for any 10-symbol input over a 3-symbol alphabet with
    frequencies a:5, b:3, c:2, the constructed tree gives a a 1-bit code
    and b and c 2-bit codes, and the codeword payload emitted after the
    serialized tree is exactly 5*1 + 3*2 + 2*2 = 15 bits. -/
theorem claim_C9 (w a b c : Nat) (s : List Nat)
    (hab : a ≠ b) (hac : a ≠ c) (hbc : b ≠ c)
    (hperm : s ~ (List.replicate 5 a ++ List.replicate 3 b ++ List.replicate 2 c)) :
    makeTree s =
      some (HTree.node (HTree.leaf a) (HTree.node (HTree.leaf c) (HTree.leaf b))) ∧
    (huffEncode (makeCodeTable (HTree.node (HTree.leaf a)
      (HTree.node (HTree.leaf c) (HTree.leaf b)))) a).map (fun e => e.2) = some 1 ∧
    (huffEncode (makeCodeTable (HTree.node (HTree.leaf a)
      (HTree.node (HTree.leaf c) (HTree.leaf b)))) b).map (fun e => e.2) = some 2 ∧
    (huffEncode (makeCodeTable (HTree.node (HTree.leaf a)
      (HTree.node (HTree.leaf c) (HTree.leaf b)))) c).map (fun e => e.2) = some 2 ∧
    (huffEncodeAll (makeCodeTable (HTree.node (HTree.leaf a)
      (HTree.node (HTree.leaf c) (HTree.leaf b)))) s).map List.length = some 15 ∧
    huffCompress w s = (huffEncodeAll (makeCodeTable (HTree.node (HTree.leaf a)
      (HTree.node (HTree.leaf c) (HTree.leaf b)))) s).map
        (fun pay => treeRepr w (HTree.node (HTree.leaf a)
          (HTree.node (HTree.leaf c) (HTree.leaf b))) ++ pay) := by
  have hca : s.count a = 5 := by
    rw [hperm.count_eq, List.count_append, List.count_append, List.count_replicate,
      List.count_replicate, List.count_replicate]
    simp [Ne.symm hab, Ne.symm hac]
  have hcb : s.count b = 3 := by
    rw [hperm.count_eq, List.count_append, List.count_append, List.count_replicate,
      List.count_replicate, List.count_replicate]
    simp [hab, Ne.symm hbc]
  have hcc : s.count c = 2 := by
    rw [hperm.count_eq, List.count_append, List.count_append, List.count_replicate,
      List.count_replicate, List.count_replicate]
    simp [hac, hbc]
  have hmem : ∀ x, x ∈ s ↔ x = a ∨ x = b ∨ x = c := by
    intro x
    rw [hperm.mem_iff]
    simp [List.mem_replicate]
  have hmk : makeTree s =
      some (HTree.node (HTree.leaf a) (HTree.node (HTree.leaf c) (HTree.leaf b))) := by
    rcases Nat.lt_trichotomy a b with h1 | h1 | h1
    · rcases Nat.lt_trichotomy b c with h2 | h2 | h2
      · -- a < b < c
        have hsort := sortedTriple_eq s a b c
          (dedup_perm_triple s a b c hab hac hbc (fun x => by rw [hmem x]))
          h1 h2
        have htbl : makeFrequencyTable s = [(a, s.count a), (b, s.count b), (c, s.count c)] := by
          unfold makeFrequencyTable
          rw [hsort]
          rfl
        rw [hca, hcb, hcc] at htbl
        unfold makeTree
        rw [htbl]
        rfl
      · exact absurd h2 hbc
      · rcases Nat.lt_trichotomy a c with h3 | h3 | h3
        · -- a < c < b
          have hsort := sortedTriple_eq s a c b
            (dedup_perm_triple s a c b hac hab (Ne.symm hbc) (fun x => by rw [hmem x]; tauto))
            h3 h2
          have htbl : makeFrequencyTable s =
              [(a, s.count a), (c, s.count c), (b, s.count b)] := by
            unfold makeFrequencyTable
            rw [hsort]
            rfl
          rw [hca, hcb, hcc] at htbl
          unfold makeTree
          rw [htbl]
          rfl
        · exact absurd h3 hac
        · -- c < a < b
          have hsort := sortedTriple_eq s c a b
            (dedup_perm_triple s c a b (Ne.symm hac) (Ne.symm hbc) hab
              (fun x => by rw [hmem x]; tauto))
            h3 h1
          have htbl : makeFrequencyTable s =
              [(c, s.count c), (a, s.count a), (b, s.count b)] := by
            unfold makeFrequencyTable
            rw [hsort]
            rfl
          rw [hca, hcb, hcc] at htbl
          unfold makeTree
          rw [htbl]
          rfl
    · exact absurd h1 hab
    · rcases Nat.lt_trichotomy a c with h2 | h2 | h2
      · -- b < a < c
        have hsort := sortedTriple_eq s b a c
          (dedup_perm_triple s b a c (Ne.symm hab) hbc hac (fun x => by rw [hmem x]; tauto))
          h1 h2
        have htbl : makeFrequencyTable s =
            [(b, s.count b), (a, s.count a), (c, s.count c)] := by
          unfold makeFrequencyTable
          rw [hsort]
          rfl
        rw [hca, hcb, hcc] at htbl
        unfold makeTree
        rw [htbl]
        rfl
      · exact absurd h2 hac
      · rcases Nat.lt_trichotomy b c with h3 | h3 | h3
        · -- b < c < a
          have hsort := sortedTriple_eq s b c a
            (dedup_perm_triple s b c a hbc (Ne.symm hab) (Ne.symm hac)
              (fun x => by rw [hmem x]; tauto))
            h3 h2
          have htbl : makeFrequencyTable s =
              [(b, s.count b), (c, s.count c), (a, s.count a)] := by
            unfold makeFrequencyTable
            rw [hsort]
            rfl
          rw [hca, hcb, hcc] at htbl
          unfold makeTree
          rw [htbl]
          rfl
        · exact absurd h3 hbc
        · -- c < b < a
          have hsort := sortedTriple_eq s c b a
            (dedup_perm_triple s c b a (Ne.symm hbc) (Ne.symm hac) (Ne.symm hab)
              (fun x => by rw [hmem x]; tauto))
            h3 h1
          have htbl : makeFrequencyTable s =
              [(c, s.count c), (b, s.count b), (a, s.count a)] := by
            unfold makeFrequencyTable
            rw [hsort]
            rfl
          rw [hca, hcb, hcc] at htbl
          unfold makeTree
          rw [htbl]
          rfl
  have htbl2 : makeCodeTable (HTree.node (HTree.leaf a)
      (HTree.node (HTree.leaf c) (HTree.leaf b))) = [(a, 0, 1), (c, 2, 2), (b, 3, 2)] := rfl
  have hAB : (a == b) = false := beq_eq_false_iff_ne.mpr hab
  have hCB : (c == b) = false := beq_eq_false_iff_ne.mpr (Ne.symm hbc)
  have hAC : (a == c) = false := beq_eq_false_iff_ne.mpr hac
  have hea : huffEncode [(a, 0, 1), (c, 2, 2), (b, 3, 2)] a = some (0, 1) := by
    simp [huffEncode, List.find?]
  have heb : huffEncode [(a, 0, 1), (c, 2, 2), (b, 3, 2)] b = some (3, 2) := by
    simp [huffEncode, List.find?, hAB, hCB]
  have hec : huffEncode [(a, 0, 1), (c, 2, 2), (b, 3, 2)] c = some (2, 2) := by
    simp [huffEncode, List.find?, hAC]
  have hEncSome : ∀ x ∈ s, (huffEncode (makeCodeTable (HTree.node (HTree.leaf a)
      (HTree.node (HTree.leaf c) (HTree.leaf b)))) x).isSome := by
    intro x hx
    rw [htbl2]
    rcases (hmem x).mp hx with rfl | rfl | rfl
    · rw [hea]; rfl
    · rw [heb]; rfl
    · rw [hec]; rfl
  obtain ⟨pay, hpay⟩ := huffEncodeAll_some s hEncSome
  have hlen15 : pay.length = 15 := by
    rw [huffEncodeAll_length _ s pay hpay, htbl2,
      (hperm.map (fun x => ((huffEncode [(a, 0, 1), (c, 2, 2), (b, 3, 2)] x).getD (0, 0)).2)).sum_eq]
    simp [List.map_append, List.map_replicate, hea, heb, hec, List.sum_append,
      List.sum_const_nat]
  refine ⟨hmk, ?_, ?_, ?_, ?_, ?_⟩
  · rw [htbl2, hea]
    rfl
  · rw [htbl2, heb]
    rfl
  · rw [htbl2, hec]
    rfl
  · rw [hpay]
    simp [hlen15]
  · unfold huffCompress
    rw [hmk]

theorem claim_C9_witness :
    makeTree (List.replicate 5 65 ++ List.replicate 3 66 ++ List.replicate 2 67) =
      some (HTree.node (HTree.leaf 65) (HTree.node (HTree.leaf 67) (HTree.leaf 66))) ∧
    (huffEncode (makeCodeTable (HTree.node (HTree.leaf 65)
      (HTree.node (HTree.leaf 67) (HTree.leaf 66)))) 65).map (fun e => e.2) = some 1 ∧
    (huffEncode (makeCodeTable (HTree.node (HTree.leaf 65)
      (HTree.node (HTree.leaf 67) (HTree.leaf 66)))) 66).map (fun e => e.2) = some 2 ∧
    (huffEncode (makeCodeTable (HTree.node (HTree.leaf 65)
      (HTree.node (HTree.leaf 67) (HTree.leaf 66)))) 67).map (fun e => e.2) = some 2 ∧
    (huffEncodeAll (makeCodeTable (HTree.node (HTree.leaf 65)
      (HTree.node (HTree.leaf 67) (HTree.leaf 66))))
      (List.replicate 5 65 ++ List.replicate 3 66 ++ List.replicate 2 67)).map
        List.length = some 15 ∧
    huffCompress 8 (List.replicate 5 65 ++ List.replicate 3 66 ++ List.replicate 2 67) =
      (huffEncodeAll (makeCodeTable (HTree.node (HTree.leaf 65)
        (HTree.node (HTree.leaf 67) (HTree.leaf 66))))
        (List.replicate 5 65 ++ List.replicate 3 66 ++ List.replicate 2 67)).map
          (fun pay => treeRepr 8 (HTree.node (HTree.leaf 65)
            (HTree.node (HTree.leaf 67) (HTree.leaf 66))) ++ pay) :=
  claim_C9 8 65 66 67 (List.replicate 5 65 ++ List.replicate 3 66 ++ List.replicate 2 67)
    (by decide) (by decide) (by decide) (List.Perm.refl _)
